import Mathlib

/-!
Verification of the straightline-datalabs vault application core against its
design specification.  Each section shallowly embeds one part of the source
(manifest cleanup, manifest append/scan, fetch-name derivation, source
resolution, crawler loop, index synchronisation) as executable Lean
definitions and proves, or refutes on concrete inputs, the specified
properties.
-/

namespace Vault

/-- Truthiness of an optional JSON string value, as Python evaluates it:
`None` (modelled `none`) and the empty string are falsy; every other string
is truthy. -/
def truthy : Option String → Bool
  | none => false
  | some s => !s.isEmpty

/-- One manifest record as consumed by `scripts/cleanup_manifest.py`: the
five JSON keys the cleanup pass reads (`kind`, `case`, `pdf`, `txt`,
`source_url`), each possibly absent or null (both modelled as `none`). -/
structure CRec where
  kind : Option String
  case : Option String
  pdf : Option String
  txt : Option String
  source_url : Option String
  deriving DecidableEq, Repr

/-- The type of dedup identity keys: one optional string per keyed field. -/
abbrev DedupKey :=
  Option String × Option String × Option String × Option String × Option String

/-- `compute_dedup_key` from `scripts/cleanup_manifest.py`: the tuple
`(kind, case, pdf, txt, source_url)` identifying one logical record. -/
def compute_dedup_key (r : CRec) : DedupKey :=
  (r.kind, r.case, r.pdf, r.txt, r.source_url)

/-- Pass 1 of `cleanup_manifest`: the `pdf → cases` index, kept as the list
of `(str(pdf), str(case))` pairs contributed by records whose `pdf` and
`case` values are both truthy.  Only non-emptiness of the case set for a
given pdf is ever consulted. -/
def pdf_to_cases (entries : List CRec) : List (String × String) :=
  entries.filterMap fun r =>
    if truthy r.pdf && truthy r.case then some (r.pdf.getD "", r.case.getD "") else none

/-- The set of expected `kind` values hard-coded in
`should_drop_legacy_kind_case_anomaly`. -/
def expected_kinds : List String := ["local_file", "url_fetch", "test_record"]

/-- Python's `kind in expected_kinds` where `kind` may be `None`. -/
def kindIsExpected : Option String → Bool
  | some k => expected_kinds.contains k
  | none => false

/-- `should_drop_legacy_kind_case_anomaly` from `scripts/cleanup_manifest.py`
against the pass-1 index: a record is dropped iff its `case` is null, its
`kind` is not one of the expected kinds, its `pdf` value is truthy, and the
index associates at least one case with that pdf. -/
def should_drop_legacy_kind_case_anomaly (r : CRec) (idx : List (String × String)) : Bool :=
  if r.case.isSome then false
  else if kindIsExpected r.kind then false
  else if !truthy r.pdf then false
  else
    match r.pdf with
    | some p => idx.any fun pc => pc.1 == p
    | none => false

/-- The record-processing loop of `cleanup_manifest` (pass 2): walks the
entries in file order; a record matching the anomaly predicate is dropped
and counted, otherwise a record whose dedup key was already seen is dropped
and counted, otherwise the record is kept and its key remembered.  Returns
`(cleaned, dropped_duplicates, dropped_anomalies)`. -/
def cleanupGo (idx : List (String × String)) :
    List CRec → List DedupKey → List CRec → Nat → Nat → List CRec × Nat × Nat
  | [], _, acc, dups, anoms => (acc.reverse, dups, anoms)
  | r :: rest, seen, acc, dups, anoms =>
    if should_drop_legacy_kind_case_anomaly r idx then
      cleanupGo idx rest seen acc dups (anoms + 1)
    else if compute_dedup_key r ∈ seen then
      cleanupGo idx rest seen acc (dups + 1) anoms
    else
      cleanupGo idx rest (compute_dedup_key r :: seen) (r :: acc) dups anoms

/-- The in-memory part of `cleanup_manifest` from
`scripts/cleanup_manifest.py`: build the pass-1 `pdf → cases` index over all
entries, then run the pass-2 loop over the same entries. -/
def cleanup_manifest_entries (entries : List CRec) : List CRec × Nat × Nat :=
  cleanupGo (pdf_to_cases entries) entries [] [] 0 0

/-- The records that survive the anomaly pass: pass-2 input minus the
records matching the anomaly predicate (with the index built over all
entries). -/
def survivorsOf (entries : List CRec) : List CRec :=
  entries.filter fun r => !should_drop_legacy_kind_case_anomaly r (pdf_to_cases entries)

/-- Reference first-occurrence deduplication by dedup key, relative to a set
of keys already seen. -/
def dedupByKey (seen : List DedupKey) : List CRec → List CRec
  | [] => []
  | r :: rest =>
    if compute_dedup_key r ∈ seen then dedupByKey seen rest
    else r :: dedupByKey (compute_dedup_key r :: seen) rest

/-- Number of records dropped as later duplicates, relative to seen keys. -/
def dupCount (seen : List DedupKey) : List CRec → Nat
  | [] => 0
  | r :: rest =>
    if compute_dedup_key r ∈ seen then dupCount seen rest + 1
    else dupCount (compute_dedup_key r :: seen) rest

theorem dedupByKey_sublist (l : List CRec) :
    ∀ seen, (dedupByKey seen l).Sublist l := by
  induction l with
  | nil => intro seen; simp [dedupByKey]
  | cons r rest ih =>
    intro seen
    by_cases h : compute_dedup_key r ∈ seen
    · simpa [dedupByKey, h] using (ih seen).cons r
    · simpa [dedupByKey, h] using (ih (compute_dedup_key r :: seen)).cons₂ r

theorem mem_dedupByKey_key_not_seen (l : List CRec) :
    ∀ seen r, r ∈ dedupByKey seen l → compute_dedup_key r ∉ seen := by
  induction l with
  | nil => intro seen r hr; simp [dedupByKey] at hr
  | cons x rest ih =>
    intro seen r hr
    by_cases h : compute_dedup_key x ∈ seen
    · rw [dedupByKey, if_pos h] at hr
      exact ih seen r hr
    · rw [dedupByKey, if_neg h] at hr
      rcases List.mem_cons.mp hr with rfl | hr'
      · exact h
      · have := ih _ r hr'
        intro hmem
        exact this (List.mem_cons_of_mem _ hmem)

theorem dedupByKey_keys_nodup (l : List CRec) :
    ∀ seen, ((dedupByKey seen l).map compute_dedup_key).Nodup := by
  induction l with
  | nil => intro seen; simp [dedupByKey]
  | cons x rest ih =>
    intro seen
    by_cases h : compute_dedup_key x ∈ seen
    · rw [dedupByKey, if_pos h]; exact ih seen
    · rw [dedupByKey, if_neg h]
      simp only [List.map_cons, List.nodup_cons]
      refine ⟨?_, ih _⟩
      intro hmem
      rcases List.mem_map.mp hmem with ⟨r, hr, hkey⟩
      have := mem_dedupByKey_key_not_seen rest _ r hr
      exact this (by simp [hkey])

theorem dedupByKey_covers (l : List CRec) :
    ∀ seen r, r ∈ l →
      compute_dedup_key r ∈ seen ∨
      ∃ r' ∈ dedupByKey seen l, compute_dedup_key r' = compute_dedup_key r := by
  induction l with
  | nil => intro seen r hr; simp at hr
  | cons x rest ih =>
    intro seen r hr
    by_cases h : compute_dedup_key x ∈ seen
    · rw [dedupByKey, if_pos h]
      rcases List.mem_cons.mp hr with rfl | hr'
      · exact Or.inl h
      · exact ih seen r hr'
    · rw [dedupByKey, if_neg h]
      rcases List.mem_cons.mp hr with rfl | hr'
      · exact Or.inr ⟨r, List.mem_cons_self _ _, rfl⟩
      · rcases ih (compute_dedup_key x :: seen) r hr' with hseen | ⟨r', hr'', hkey⟩
        · rcases List.mem_cons.mp hseen with heq | hseen'
          · exact Or.inr ⟨x, List.mem_cons_self _ _, heq.symm⟩
          · exact Or.inl hseen'
        · exact Or.inr ⟨r', List.mem_cons_of_mem _ hr'', hkey⟩

theorem dedupByKey_first_occurrence (l : List CRec) :
    ∀ seen r, r ∈ dedupByKey seen l →
      (l.filter fun x => decide (compute_dedup_key x = compute_dedup_key r)).head? = some r := by
  induction l with
  | nil => intro seen r hr; simp [dedupByKey] at hr
  | cons x rest ih =>
    intro seen r hr
    by_cases h : compute_dedup_key x ∈ seen
    · rw [dedupByKey, if_pos h] at hr
      have hne : compute_dedup_key x ≠ compute_dedup_key r := by
        intro heq
        exact mem_dedupByKey_key_not_seen rest seen r hr (heq ▸ h)
      rw [List.filter_cons, if_neg (by simpa using hne)]
      exact ih seen r hr
    · rw [dedupByKey, if_neg h] at hr
      rcases List.mem_cons.mp hr with rfl | hr'
      · rw [List.filter_cons, if_pos (by simp)]
        rfl
      · have hnotin := mem_dedupByKey_key_not_seen rest _ r hr'
        have hne : compute_dedup_key x ≠ compute_dedup_key r := by
          intro heq
          exact hnotin (by simp [heq])
        rw [List.filter_cons, if_neg (by simpa using hne)]
        exact ih _ r hr'

theorem dedupByKey_length (l : List CRec) :
    ∀ seen, (dedupByKey seen l).length + dupCount seen l = l.length := by
  induction l with
  | nil => intro seen; simp [dedupByKey, dupCount]
  | cons x rest ih =>
    intro seen
    by_cases h : compute_dedup_key x ∈ seen
    · rw [dedupByKey, if_pos h, dupCount, if_pos h]
      have := ih seen
      simp only [List.length_cons]
      omega
    · rw [dedupByKey, if_neg h, dupCount, if_neg h]
      have := ih (compute_dedup_key x :: seen)
      simp only [List.length_cons]
      omega

theorem cleanupGo_eq (idx : List (String × String)) (l : List CRec) :
    ∀ seen acc dups anoms,
      cleanupGo idx l seen acc dups anoms =
        (acc.reverse ++ dedupByKey seen (l.filter fun r => !should_drop_legacy_kind_case_anomaly r idx),
         dups + dupCount seen (l.filter fun r => !should_drop_legacy_kind_case_anomaly r idx),
         anoms + l.countP fun r => should_drop_legacy_kind_case_anomaly r idx) := by
  induction l with
  | nil => intro seen acc dups anoms; simp [cleanupGo, dedupByKey, dupCount]
  | cons r rest ih =>
    intro seen acc dups anoms
    by_cases hd : should_drop_legacy_kind_case_anomaly r idx
    · rw [cleanupGo, if_pos hd, ih]
      simp [List.filter_cons, List.countP_cons, hd]
      omega
    · rw [cleanupGo, if_neg hd]
      by_cases hk : compute_dedup_key r ∈ seen
      · rw [if_pos hk, ih]
        simp [List.filter_cons, List.countP_cons, hd, dedupByKey, dupCount, hk]
        omega
      · rw [if_neg hk, ih]
        simp [List.filter_cons, List.countP_cons, hd, dedupByKey, dupCount, hk]

theorem cleanup_manifest_entries_eq (entries : List CRec) :
    cleanup_manifest_entries entries =
      (dedupByKey [] (survivorsOf entries),
       dupCount [] (survivorsOf entries),
       entries.countP fun r =>
         should_drop_legacy_kind_case_anomaly r (pdf_to_cases entries)) := by
  rw [cleanup_manifest_entries, cleanupGo_eq]
  simp [survivorsOf]

/-- C1: counterexample.  Two records that agree on `kind`, `case`, `txt`
(the extracted-text artifact path) and `source_url` — an identical
`(kind, case, artifact_path, source_url)` identity tuple — but differ in
the `pdf` field are NOT deduplicated: `cleanup_manifest` keeps both and
reports zero duplicate drops, because `compute_dedup_key` also includes
`pdf` in the identity key. -/
theorem dedup_key_four_tuple_counterexample :
    cleanup_manifest_entries
        [⟨some "local_file", some "c1", some "a.pdf", some "t.txt", none⟩,
         ⟨some "local_file", some "c1", some "b.pdf", some "t.txt", none⟩] =
      ([⟨some "local_file", some "c1", some "a.pdf", some "t.txt", none⟩,
        ⟨some "local_file", some "c1", some "b.pdf", some "t.txt", none⟩], 0, 0) ∧
    CRec.mk (some "local_file") (some "c1") (some "a.pdf") (some "t.txt") none ≠
      CRec.mk (some "local_file") (some "c1") (some "b.pdf") (some "t.txt") none := by
  decide

/-- C1 (amended): `cleanup_manifest` dedupes on the five-field identity
tuple `(kind, case, pdf, txt, source_url)`.  Over the records surviving the
anomaly pass it keeps, in file order, exactly the first occurrence of each
identity tuple (the kept list is a sublist of the survivors, its keys are
pairwise distinct and cover every survivor's key, and each kept record is
the first survivor bearing its key), and it reports as duplicate drops
exactly the number of later records with an already-seen tuple. -/
theorem dedupe_first_occurrence_five_tuple (entries : List CRec) :
    ((cleanup_manifest_entries entries).1).Sublist (survivorsOf entries) ∧
    (((cleanup_manifest_entries entries).1).map compute_dedup_key).Nodup ∧
    (∀ r ∈ survivorsOf entries, ∃ r' ∈ (cleanup_manifest_entries entries).1,
        compute_dedup_key r' = compute_dedup_key r) ∧
    (∀ r ∈ (cleanup_manifest_entries entries).1,
        ((survivorsOf entries).filter fun x =>
          decide (compute_dedup_key x = compute_dedup_key r)).head? = some r) ∧
    ((cleanup_manifest_entries entries).1).length + (cleanup_manifest_entries entries).2.1 =
      (survivorsOf entries).length ∧
    (cleanup_manifest_entries entries).2.2 =
      entries.countP (fun r => should_drop_legacy_kind_case_anomaly r (pdf_to_cases entries)) := by
  rw [cleanup_manifest_entries_eq]
  refine ⟨dedupByKey_sublist _ _, dedupByKey_keys_nodup _ _, ?_, ?_, ?_, rfl⟩
  · intro r hr
    rcases dedupByKey_covers _ [] r hr with h | h
    · simp at h
    · exact h
  · intro r hr
    exact dedupByKey_first_occurrence _ [] r hr
  · exact dedupByKey_length _ []

/-- C1 (amended), witness: on a manifest holding the same record twice, the
kept list covers the record's identity key. -/
theorem dedupe_first_occurrence_five_tuple_witness :
    ∃ r' ∈ (cleanup_manifest_entries
        [⟨some "local_file", some "c", some "a.pdf", some "a.txt", none⟩,
         ⟨some "local_file", some "c", some "a.pdf", some "a.txt", none⟩]).1,
      compute_dedup_key r' =
        compute_dedup_key ⟨some "local_file", some "c", some "a.pdf", some "a.txt", none⟩ :=
  (dedupe_first_occurrence_five_tuple
      [⟨some "local_file", some "c", some "a.pdf", some "a.txt", none⟩,
       ⟨some "local_file", some "c", some "a.pdf", some "a.txt", none⟩]).2.2.1
    ⟨some "local_file", some "c", some "a.pdf", some "a.txt", none⟩ (by decide)

theorem isEmpty_false_iff (s : String) : s.isEmpty = false ↔ s ≠ "" := by
  rw [Bool.eq_false_iff]
  exact not_congr (String.isEmpty_iff s)

/-- Membership in the pass-1 `pdf → cases` index, declaratively: a pair is
recorded exactly for the records whose `pdf` and `case` are both truthy. -/
theorem mem_pdf_to_cases (entries : List CRec) (p c : String) :
    (p, c) ∈ pdf_to_cases entries ↔
      ∃ r ∈ entries, r.pdf = some p ∧ r.case = some c ∧ p ≠ "" ∧ c ≠ "" := by
  simp only [pdf_to_cases, List.mem_filterMap]
  constructor
  · rintro ⟨r, hr, hmatch⟩
    by_cases h : truthy r.pdf && truthy r.case
    · rw [if_pos h] at hmatch
      rcases Bool.and_eq_true .. |>.mp h with ⟨hp, hc⟩
      cases hpd : r.pdf with
      | none => rw [hpd] at hp; simp [truthy] at hp
      | some pv =>
        cases hcs : r.case with
        | none => rw [hcs] at hc; simp [truthy] at hc
        | some cv =>
          rw [hpd] at hp hmatch
          rw [hcs] at hc hmatch
          simp only [truthy, Bool.not_eq_true'] at hp hc
          simp only [Option.getD_some, Option.some.injEq, Prod.mk.injEq] at hmatch
          refine ⟨r, hr, hpd.trans (by rw [hmatch.1]), hcs.trans (by rw [hmatch.2]), ?_, ?_⟩
          · rw [← hmatch.1]; exact (isEmpty_false_iff pv).mp hp
          · rw [← hmatch.2]; exact (isEmpty_false_iff cv).mp hc
    · rw [if_neg h] at hmatch
      exact absurd hmatch (by simp)
  · rintro ⟨r, hr, hp, hc, hpne, hcne⟩
    refine ⟨r, hr, ?_⟩
    rw [hp, hc]
    simp [truthy, (isEmpty_false_iff p).mpr hpne, (isEmpty_false_iff c).mpr hcne]

/-- C3 (amended): the anomaly predicate, characterised declaratively: with
the pass-1 index built over `entries`, a record is dropped as a legacy
anomaly iff its `case` is null, its `kind` is not in
`{local_file, url_fetch, test_record}`, and its `pdf` field is a non-empty
path that some record of the manifest associates with a truthy `case`.
In particular the pass is keyed on the `pdf` field (not on the
extracted-text artifact path), and on the pdf-keyed version of the spec's
scenario cleanup drops the anomalous record and keeps the proper one. -/
theorem anomaly_two_pass_pdf_keyed :
    (∀ (entries : List CRec) (r : CRec),
      should_drop_legacy_kind_case_anomaly r (pdf_to_cases entries) = true ↔
        (r.case = none ∧ kindIsExpected r.kind = false ∧
         truthy r.pdf = true ∧
         ∃ r' ∈ entries, r'.pdf = r.pdf ∧ truthy r'.case = true)) ∧
    cleanup_manifest_entries
        [⟨some "case_x", none, some "a.pdf", none, none⟩,
         ⟨some "local_file", some "case_x", some "a.pdf", none, none⟩] =
      ([⟨some "local_file", some "case_x", some "a.pdf", none, none⟩], 0, 1) := by
  constructor
  · intro entries r
    cases hc : r.case with
    | some c => simp [should_drop_legacy_kind_case_anomaly, hc]
    | none =>
      by_cases hk : kindIsExpected r.kind
      · simp [should_drop_legacy_kind_case_anomaly, hc, hk]
      · cases hp : r.pdf with
        | none => simp [should_drop_legacy_kind_case_anomaly, hc, hk, hp, truthy]
        | some p =>
          by_cases hpe : p.isEmpty
          · simp [should_drop_legacy_kind_case_anomaly, hc, hk, hp, truthy, hpe]
          · have hkb : kindIsExpected r.kind = false := by
              cases hkk : kindIsExpected r.kind
              · rfl
              · exact absurd hkk hk
            have hpeb : p.isEmpty = false := by
              cases hpp : p.isEmpty
              · rfl
              · exact absurd hpp hpe
            have htr : truthy r.pdf = true := by rw [hp]; simp [truthy, hpeb]
            have hlhs : should_drop_legacy_kind_case_anomaly r (pdf_to_cases entries) =
                ((pdf_to_cases entries).any fun pc => pc.1 == p) := by
              rw [should_drop_legacy_kind_case_anomaly,
                if_neg (by simp [hc]), if_neg (by simp [hkb]),
                if_neg (by simp [htr]), hp]
            rw [hlhs]
            constructor
            · intro hany
              rcases List.any_eq_true.mp hany with ⟨pc, hpc, heq⟩
              rcases (mem_pdf_to_cases entries pc.1 pc.2).mp (by simpa using hpc)
                with ⟨r', hr', hp', hc', _, hcne⟩
              have hpc1 : pc.1 = p := by simpa using heq
              refine ⟨rfl, hkb, by simp [truthy, hpeb], r', hr', ?_, ?_⟩
              · rw [hp', hpc1]
              · rw [hc']
                simp [truthy, (isEmpty_false_iff _).mpr hcne]
            · rintro ⟨-, -, -, r', hr', hp', hc'⟩
              cases hcs : r'.case with
              | none => rw [hcs] at hc'; simp [truthy] at hc'
              | some cv =>
                rw [hcs] at hc'
                simp only [truthy, Bool.not_eq_true'] at hc'
                refine List.any_eq_true.mpr ⟨(p, cv), ?_, by simp⟩
                exact (mem_pdf_to_cases entries p cv).mpr
                  ⟨r', hr', hp', hcs, (isEmpty_false_iff p).mp hpeb,
                   (isEmpty_false_iff cv).mp hc'⟩
  · decide

/-- C3 (amended), witness: in a manifest pairing an anomalous record
(`kind` a case-like label, `case` null) with a proper record sharing its
`pdf`, the anomaly predicate fires on the anomalous record. -/
theorem anomaly_two_pass_pdf_keyed_witness :
    should_drop_legacy_kind_case_anomaly
        ⟨some "case_x", none, some "a.pdf", none, none⟩
        (pdf_to_cases
          [⟨some "case_x", none, some "a.pdf", none, none⟩,
           ⟨some "local_file", some "case_x", some "a.pdf", none, none⟩]) = true :=
  (anomaly_two_pass_pdf_keyed.1 _ _).mpr (by decide)

/-- C3: counterexample.  The spec's scenario keyed on the extracted-text
artifact path: a record `(kind = "case_x", case = null, txt = "a.txt")`
alongside `(kind = "local_file", case = "case_x", txt = "a.txt")` sharing
only the `txt` artifact path (no `pdf` field).  Cleanup keeps BOTH records
and drops nothing, because the anomaly heuristic requires a truthy `pdf`
field; the claim says the first record is dropped. -/
theorem anomaly_artifact_path_counterexample :
    cleanup_manifest_entries
        [⟨some "case_x", none, none, some "a.txt", none⟩,
         ⟨some "local_file", some "case_x", none, some "a.txt", none⟩] =
      ([⟨some "case_x", none, none, some "a.txt", none⟩,
        ⟨some "local_file", some "case_x", none, some "a.txt", none⟩], 0, 0) ∧
    kindIsExpected (some "case_x") = false := by
  decide

/-- Observable contents of the two paths touched by the write-back phase of
`cleanup_manifest`: the manifest file and its `.bak` sibling, each either
absent (`none`) or holding a list of records (one JSON line each). -/
structure FsState where
  manifest : Option (List CRec)
  backup : Option (List CRec)
  deriving DecidableEq, Repr

/-- The sequence of filesystem states produced by the write-back phase of
`cleanup_manifest` (one state per atomic step, in program order): the
initial state; the state after `MANIFEST_PATH.replace(backup_path)` renames
the original to `.bak`; the state after `open("w")` creates the manifest
empty; and one state after each record write, the manifest then holding the
first `i` cleaned records. -/
def cleanup_write_states (orig cleaned : List CRec) : List FsState :=
  ⟨some orig, none⟩ :: ⟨none, some orig⟩ ::
    (List.range (cleaned.length + 1)).map fun i => ⟨some (cleaned.take i), some orig⟩

/-- End-to-end cleanup on a manifest holding `orig`: compute the cleaned
entries in memory, then run the write-back sequence. -/
def cleanup_manifest_states (orig : List CRec) : List FsState :=
  cleanup_write_states orig (cleanup_manifest_entries orig).1

/-- C2: counterexample.  On a two-record manifest with distinct identity
keys the cleaned output equals the original, yet the write-back passes
through a state in which the manifest file holds only the first record — a
partially-written manifest, which an interruption at that point would leave
behind.  The cleaned records are not written to a new location and
installed by an atomic rename: the manifest path itself is rewritten in
place after the original is renamed to `.bak`. -/
theorem cleanup_atomic_swap_counterexample :
    (cleanup_manifest_entries
        [⟨some "local_file", some "c", some "a.pdf", some "a.txt", none⟩,
         ⟨some "local_file", some "c", some "b.pdf", some "b.txt", none⟩]).1 =
      [⟨some "local_file", some "c", some "a.pdf", some "a.txt", none⟩,
       ⟨some "local_file", some "c", some "b.pdf", some "b.txt", none⟩] ∧
    FsState.mk (some [⟨some "local_file", some "c", some "a.pdf", some "a.txt", none⟩])
        (some [⟨some "local_file", some "c", some "a.pdf", some "a.txt", none⟩,
               ⟨some "local_file", some "c", some "b.pdf", some "b.txt", none⟩]) ∈
      cleanup_manifest_states
        [⟨some "local_file", some "c", some "a.pdf", some "a.txt", none⟩,
         ⟨some "local_file", some "c", some "b.pdf", some "b.txt", none⟩] ∧
    [⟨some "local_file", some "c", some "a.pdf", some "a.txt", none⟩] ≠
      [⟨some "local_file", some "c", some "a.pdf", some "a.txt", none⟩,
       (⟨some "local_file", some "c", some "b.pdf", some "b.txt", none⟩ : CRec)] ∧
    [(⟨some "local_file", some "c", some "a.pdf", some "a.txt", none⟩ : CRec)] ≠ [] := by
  refine ⟨by decide, by decide, by decide, by decide⟩

theorem getLast_cons_cons_concat {α : Type} (a b x : α) (L : List α) :
    (a :: b :: (L ++ [x])).getLast? = some x := by
  rw [show a :: b :: (L ++ [x]) = (a :: b :: L) ++ [x] from by simp, List.getLast?_concat]

/-- C2 (amended): the write-back of `cleanup_manifest` first renames the
pre-cleanup manifest to its `.bak` sibling in one atomic step and then
rewrites the manifest path in place.  From the rename on, the backup holds
the full pre-cleanup contents in every state; the final state holds exactly
the cleaned records; and at every point the manifest path holds the
original contents, a (possibly partial) prefix of the cleaned records, or
nothing — so an interruption can leave the manifest partially written, but
never loses the pre-cleanup contents. -/
theorem cleanup_backup_then_inplace_write (orig : List CRec) :
    (cleanup_manifest_states orig).head? = some ⟨some orig, none⟩ ∧
    (∀ s ∈ (cleanup_manifest_states orig).tail, s.backup = some orig) ∧
    (cleanup_manifest_states orig).getLast? =
      some ⟨some (cleanup_manifest_entries orig).1, some orig⟩ ∧
    (∀ s ∈ cleanup_manifest_states orig, ∀ m, s.manifest = some m →
      m = orig ∨ m <+: (cleanup_manifest_entries orig).1) := by
  refine ⟨rfl, ?_, ?_, ?_⟩
  · intro s hs
    simp only [cleanup_manifest_states, cleanup_write_states, List.tail_cons,
      List.mem_cons, List.mem_map, List.mem_range] at hs
    rcases hs with rfl | ⟨i, _, rfl⟩ <;> rfl
  · rw [cleanup_manifest_states, cleanup_write_states, List.range_succ, List.map_append]
    simp only [List.map_cons, List.map_nil]
    rw [getLast_cons_cons_concat]
    simp [List.take_length]
  · intro s hs m hm
    simp only [cleanup_manifest_states, cleanup_write_states, List.mem_cons,
      List.mem_map, List.mem_range] at hs
    rcases hs with rfl | rfl | ⟨i, _, rfl⟩
    · simp only at hm
      exact Or.inl (by injection hm with h; exact h.symm)
    · simp at hm
    · simp only at hm
      injection hm with h
      exact Or.inr (h ▸ List.take_prefix i _)

/-- C2 (amended), witness: on a concrete one-record manifest, the
post-truncation state is reachable, its backup holds the original, and its
(empty) manifest contents are a prefix of the cleaned records. -/
theorem cleanup_backup_then_inplace_write_witness :
    (FsState.mk (some []) (some [⟨some "local_file", some "c", some "a.pdf", some "a.txt", none⟩])).backup =
      some [⟨some "local_file", some "c", some "a.pdf", some "a.txt", none⟩] ∧
    (([] : List CRec) = [⟨some "local_file", some "c", some "a.pdf", some "a.txt", none⟩] ∨
      ([] : List CRec) <+:
        (cleanup_manifest_entries
          [⟨some "local_file", some "c", some "a.pdf", some "a.txt", none⟩]).1) :=
  ⟨(cleanup_backup_then_inplace_write
      [⟨some "local_file", some "c", some "a.pdf", some "a.txt", none⟩]).2.1
    ⟨some [], some [⟨some "local_file", some "c", some "a.pdf", some "a.txt", none⟩]⟩
    (by decide),
   (cleanup_backup_then_inplace_write
      [⟨some "local_file", some "c", some "a.pdf", some "a.txt", none⟩]).2.2.2
    ⟨some [], some [⟨some "local_file", some "c", some "a.pdf", some "a.txt", none⟩]⟩
    (by decide) [] rfl⟩

/-- A small universe of JSON values, enough to hold manifest records. -/
inductive Jv where
  | null : Jv
  | str : String → Jv
  | arr : List Jv → Jv
  | obj : List (String × Jv) → Jv

/-- A manifest record as written to `manifest.jsonl`: an insertion-ordered
JSON object, modelled as an association list. -/
abbrev JRecord := List (String × Jv)

/-- Python `dict.get` on a top-level key. -/
def jget (d : JRecord) (k : String) : Option Jv :=
  (d.find? fun kv => kv.1 == k).map (·.2)

/-- Python `dict.setdefault`: keep an existing key, else append the pair. -/
def setdefault (d : JRecord) (k : String) (v : Jv) : JRecord :=
  if (d.find? fun kv => kv.1 == k).isSome then d else d ++ [(k, v)]

/-- Encoding of an optional string: Python `None` becomes JSON null. -/
def optStr : Option String → Jv
  | none => Jv.null
  | some s => Jv.str s

/-- `make_record` from `vault_core/manifest.py`.  The wall-clock reading
`_now_iso()` made inside the function is passed as the explicit `now`
argument: it is produced at record-construction time and is not one of the
function's caller-facing parameters. -/
def make_record (doc_id : String) (source_file : String) (ingest_type : String)
    (source_url : Option String) (tenant_id : String) (tags : Option (List String))
    (collection : Option String) (extra : Option JRecord) (now : String) : JRecord :=
  let base_extra : JRecord := match extra with | some e => e | none => []
  let base_extra := match tags with
    | some ts => setdefault base_extra "tags" (Jv.arr (ts.map Jv.str))
    | none => base_extra
  let base_extra := match collection with
    | some c => setdefault base_extra "collection" (Jv.str c)
    | none => base_extra
  [("doc_id", Jv.str doc_id), ("tenant_id", Jv.str tenant_id),
   ("source_file", Jv.str source_file), ("ingest_type", Jv.str ingest_type),
   ("source_url", optStr source_url), ("created_at", Jv.str now),
   ("extra", Jv.obj base_extra)]

/-- `append_record` from `vault_core/manifest.py`: one JSON line is appended
to the ledger, holding exactly the record the caller passed. -/
def append_record (ledger : List JRecord) (record : JRecord) : List JRecord :=
  ledger ++ [record]

/-- `build_provenance_record` from `vault_core/ingest/pipeline.py`: the
record appended by the ingest pipeline, carrying only `kind`, `pdf`, `txt`
and `source_url`. -/
def build_provenance_record (pdf_path txt_path : String) (source_url : Option String)
    (kind : String) : JRecord :=
  [("kind", Jv.str kind), ("pdf", Jv.str pdf_path), ("txt", Jv.str txt_path),
   ("source_url", optStr source_url)]

/-- C7: counterexample.  The record the ingest pipeline appends during
normal operation carries no timestamp at all (`created_at` and `timestamp`
are both absent), and `append_record` stores whatever record it is given
verbatim — including a caller-supplied `created_at` — so the stored
timestamp is not assigned by the append step and may be caller-supplied. -/
theorem timestamp_at_append_counterexample :
    append_record [] (build_provenance_record "a.pdf" "a.txt" none "local_file") =
      [build_provenance_record "a.pdf" "a.txt" none "local_file"] ∧
    jget (build_provenance_record "a.pdf" "a.txt" none "local_file") "created_at" = none ∧
    jget (build_provenance_record "a.pdf" "a.txt" none "local_file") "timestamp" = none ∧
    append_record [] [("created_at", Jv.str "1999-01-01T00:00:00+00:00")] =
      [[("created_at", Jv.str "1999-01-01T00:00:00+00:00")]] :=
  ⟨rfl, rfl, rfl, rfl⟩

/-- C7 (amended): the `created_at` timestamp is assigned by `make_record`
at record-construction time from its internal clock reading and cannot be
overridden through `make_record`'s parameters; `append_record` appends the
given record verbatim and assigns no timestamp; records built by the ingest
pipeline's `build_provenance_record` carry no timestamp field at all. -/
theorem timestamp_assigned_at_construction (doc_id source_file ingest_type : String)
    (source_url : Option String) (tenant_id : String) (tags : Option (List String))
    (collection : Option String) (extra : Option JRecord) (now : String)
    (ledger : List JRecord) (r : JRecord) (pdf txt : String) (su : Option String)
    (kind : String) :
    jget (make_record doc_id source_file ingest_type source_url tenant_id tags
        collection extra now) "created_at" = some (Jv.str now) ∧
    append_record ledger r = ledger ++ [r] ∧
    jget (build_provenance_record pdf txt su kind) "created_at" = none :=
  ⟨rfl, rfl, rfl⟩

/-- The set of characters Python's `str.strip()` removes, restricted to the
ASCII whitespace actually occurring in manifest lines. -/
def pyWhitespace (c : Char) : Bool :=
  c == ' ' || c == '\t' || c == '\n' || c == '\r' || c == Char.ofNat 11 || c == Char.ofNat 12

/-- Python `str.strip()`: drop leading and trailing whitespace. -/
def pyStrip (s : String) : String :=
  ((s.toList.dropWhile pyWhitespace).reverse.dropWhile pyWhitespace).reverse.asString

/-- `iter_records` from `vault_core/manifest.py`.  The manifest file is
given as its list of lines plus an existence flag; `json.loads` (external
stdlib) is the `parse` parameter, returning `none` exactly on the lines it
fails to parse.  A missing file yields `[]`; otherwise each line is
stripped, blank lines are skipped, and lines that fail to parse are skipped
rather than failing the scan. -/
def iter_records {α : Type} (parse : String → Option α) (manifestExists : Bool)
    (lines : List String) : List α :=
  if manifestExists then
    lines.filterMap fun line =>
      let s := pyStrip line
      if s = "" then none else parse s
  else []

/-- C9: a missing manifest yields the empty sequence rather than raising; a
well-formed line contributes its parsed record in file position; a
non-blank line that fails to parse is skipped, leaving the rest of the scan
intact; and a blank line is likewise skipped. -/
theorem scan_skips_malformed {α : Type} (parse : String → Option α) :
    (∀ lines, iter_records parse false lines = []) ∧
    (∀ l1 l2 (good : String) (r : α), pyStrip good ≠ "" → parse (pyStrip good) = some r →
      iter_records parse true (l1 ++ good :: l2) =
        iter_records parse true l1 ++ r :: iter_records parse true l2) ∧
    (∀ l1 l2 (bad : String), pyStrip bad ≠ "" → parse (pyStrip bad) = none →
      iter_records parse true (l1 ++ bad :: l2) = iter_records parse true (l1 ++ l2)) ∧
    (∀ l1 l2 (blank : String), pyStrip blank = "" →
      iter_records parse true (l1 ++ blank :: l2) = iter_records parse true (l1 ++ l2)) := by
  refine ⟨fun lines => rfl, ?_, ?_, ?_⟩
  · intro l1 l2 good r hne hp
    simp [iter_records, List.filterMap_append, List.filterMap_cons, hne, hp]
  · intro l1 l2 bad hne hp
    simp [iter_records, List.filterMap_append, List.filterMap_cons, hne, hp]
  · intro l1 l2 blank hb
    simp [iter_records, List.filterMap_append, List.filterMap_cons, hb]

/-- C9, witness: with a parser recognising exactly the line `ok`, a
malformed line between two good lines is skipped and the two good lines
still parse in order. -/
theorem scan_skips_malformed_witness :
    iter_records (fun s => if s = "ok" then some 7 else none) true
        (["ok"] ++ "bad" :: [" ok "]) =
      iter_records (fun s => if s = "ok" then some 7 else none) true (["ok"] ++ [" ok "]) ∧
    iter_records (fun s => if s = "ok" then some 7 else none) false ["ok"] = [] :=
  ⟨(scan_skips_malformed _).2.2.1 ["ok"] [" ok "] "bad" (by decide) (by decide),
   (scan_skips_malformed _).1 ["ok"]⟩

/-- Python `str.split(sep)` on character lists: always at least one group,
and no group contains the separator. -/
def splitOnChar (sep : Char) : List Char → List (List Char)
  | [] => [[]]
  | c :: rest =>
    if c = sep then [] :: splitOnChar sep rest
    else (c :: (splitOnChar sep rest).headD []) :: (splitOnChar sep rest).tail

theorem splitOnChar_ne_nil (sep : Char) (l : List Char) : splitOnChar sep l ≠ [] := by
  cases l with
  | nil => simp [splitOnChar]
  | cons c rest => by_cases h : c = sep <;> simp [splitOnChar, h]

theorem sep_not_mem_of_mem_splitOnChar (sep : Char) (l : List Char) :
    ∀ g ∈ splitOnChar sep l, sep ∉ g := by
  induction l with
  | nil => intro g hg; simp [splitOnChar] at hg; simp [hg]
  | cons c rest ih =>
    intro g hg
    rw [splitOnChar] at hg
    by_cases h : c = sep
    · rw [if_pos h] at hg
      rcases List.mem_cons.mp hg with rfl | hg'
      · simp
      · exact ih g hg'
    · rw [if_neg h] at hg
      rcases List.mem_cons.mp hg with rfl | hg'
      · intro hmem
        rcases List.mem_cons.mp hmem with heq | hmem'
        · exact h heq.symm
        · cases hs : splitOnChar sep rest with
          | nil => exact absurd hs (splitOnChar_ne_nil sep rest)
          | cons g0 gs =>
            rw [hs] at hmem'
            simp only [List.headD_cons] at hmem'
            exact ih g0 (hs ▸ List.mem_cons_self _ _) hmem'
      · cases hs : splitOnChar sep rest with
        | nil => exact absurd hs (splitOnChar_ne_nil sep rest)
        | cons g0 gs =>
          rw [hs] at hg'
          simp only [List.tail_cons] at hg'
          exact ih g (hs ▸ List.mem_cons_of_mem _ hg')

theorem splitOnChar_of_not_mem (sep : Char) (l : List Char) (h : sep ∉ l) :
    splitOnChar sep l = [l] := by
  induction l with
  | nil => rfl
  | cons c rest ih =>
    have hc : ¬c = sep := fun he => h (he ▸ List.mem_cons_self _ _)
    have hrest : sep ∉ rest := fun hm => h (List.mem_cons_of_mem _ hm)
    rw [splitOnChar, if_neg hc, ih hrest]
    simp

/-- Python `str.rstrip(c)`: drop trailing occurrences of `c`. -/
def rstripChar (c : Char) (l : List Char) : List Char :=
  (l.reverse.dropWhile fun x => x == c).reverse

/-- Python `str.endswith(suf)` on character lists. -/
def endsWith (l suf : List Char) : Bool := decide (suf <:+ l)

/-- The `.pdf`-suffix enforcement of both fetch drafts: append `.pdf`
unless the name already ends in `.pdf` case-insensitively. -/
def ensure_pdf_suffix (f : List Char) : List Char :=
  if endsWith (f.map Char.toLower) ".pdf".toList then f else f ++ ".pdf".toList

/-- The name derivation of `fetch_pdf` from `vault_core/ingest/fetch.py`
when no filename is supplied: the last `/`-separated segment of the whole
URL after stripping trailing slashes, falling back to `download.pdf` when
that segment is empty. -/
def fetch_pdf_derive (url : List Char) : List Char :=
  if ((splitOnChar '/' (rstripChar '/' url)).getLast?).getD [] = [] then
    "download.pdf".toList
  else ((splitOnChar '/' (rstripChar '/' url)).getLast?).getD []

/-- The filename logic of `fetch_pdf` from `vault_core/ingest/fetch.py`.
The stored artifact path is `INPUT_DIR / filename`. -/
def fetch_pdf_filename (url : List Char) (filename : Option (List Char)) : List Char :=
  ensure_pdf_suffix (match filename with | some f => f | none => fetch_pdf_derive url)

/-- Take characters up to (excluding) the first occurrence of `c`. -/
def takeUntilChar (c : Char) (l : List Char) : List Char :=
  l.takeWhile fun x => x != c

/-- Characters allowed in a URL scheme (`urllib.parse.scheme_chars`). -/
def isSchemeChar (c : Char) : Bool :=
  c.isAlphanum || c == '+' || c == '-' || c == '.'

def headIsAlpha : List Char → Bool
  | [] => false
  | c :: _ => c.isAlpha

/-- The scheme-splitting step of `urllib.parse.urlsplit`: a scheme is
recognised when a `:` occurs at position ≥ 1, the first character is an
ASCII letter and everything before the `:` is a scheme character; the
scheme is lowercased.  Returns `(scheme?, remainder)`. -/
def splitScheme (l : List Char) : Option (List Char) × List Char :=
  let pre := takeUntilChar ':' l
  if pre.length < l.length && !pre.isEmpty && headIsAlpha pre && pre.all isSchemeChar then
    (some (pre.map Char.toLower), l.drop (pre.length + 1))
  else
    (none, l)

/-- The `.path` attribute of `urllib.parse.urlparse`: drop the fragment,
strip a recognised scheme, skip the netloc when the remainder starts with
`//`, and drop the query. -/
def pyUrlPath (url : List Char) : List Char :=
  let rest := (splitScheme (takeUntilChar '#' url)).2
  let rest2 :=
    if rest.take 2 = ['/', '/'] then
      (rest.drop 2).dropWhile fun c => c != '/' && c != '?'
    else rest
  takeUntilChar '?' rest2

/-- `pathlib.PurePosixPath(p).name`: the last path component, with empty
and `.` components discarded. -/
def pathlibName (p : List Char) : List Char :=
  ((((splitOnChar '/' p).filter fun g => !g.isEmpty && g != ['.'])).getLast?).getD []

/-- `_guess_filename_from_url` from `vault_core/ingest.py`: the last URL
path component, falling back to `document.pdf`, with `.pdf` appended unless
already present case-insensitively. -/
def guess_filename_from_url (url : List Char) : List Char :=
  ensure_pdf_suffix
    (if pathlibName (pyUrlPath url) = [] then "document.pdf".toList
     else pathlibName (pyUrlPath url))

/-- The characters `safe_name` from `scripts/fetch.py` lets through:
`[A-Za-z0-9._-]`; everything else is replaced by `_`. -/
def isSafeChar (c : Char) : Bool :=
  c.isAlphanum || c == '.' || c == '_' || c == '-'

/-- The extension test of `safe_name`: the regex search for
`\.[A-Za-z0-9]\x7b2,5\x7d$` succeeds iff the maximal trailing alphanumeric
run has length 2 to 5 and is preceded by a dot. -/
def hasShortExt (name : List Char) : Bool :=
  decide (2 ≤ (name.reverse.takeWhile Char.isAlphanum).length) &&
  decide ((name.reverse.takeWhile Char.isAlphanum).length ≤ 5) &&
  (name.reverse.get? (name.reverse.takeWhile Char.isAlphanum).length == some '.')

/-- The pre-sanitisation name of `safe_name` from `scripts/fetch.py`: the
last URL path component with fallback `download`. -/
def safe_base (url : List Char) : List Char :=
  if pathlibName (pyUrlPath url) = [] then "download".toList
  else pathlibName (pyUrlPath url)

/-- `safe_name` from `scripts/fetch.py`: last URL path component (fallback
`download`), `.bin` appended when there is no short extension, then every
character outside `[A-Za-z0-9._-]` replaced by `_`. -/
def safe_name (url : List Char) : List Char :=
  (if hasShortExt (safe_base url) then safe_base url
   else safe_base url ++ ".bin".toList).map fun c => if isSafeChar c then c else '_'

/-- `pathlib` parsing of a path string into components (empty and `.`
components discarded, `..` kept). -/
def pathComps (s : List Char) : List (List Char) :=
  (splitOnChar '/' s).filter fun g => !g.isEmpty && g != ['.']

def isAbsPath : List Char → Bool
  | c :: _ => c == '/'
  | [] => false

/-- `pathlib` `/` join of a base directory (given by its components, rooted)
with a path string: an absolute string replaces the base. -/
def pathJoin (base : List (List Char)) (s : List Char) : List (List Char) :=
  if isAbsPath s then pathComps s else base ++ pathComps s

/-- One step of lexical `..` resolution on a rooted component list. -/
def resolveStep (acc : List (List Char)) (c : List Char) : List (List Char) :=
  if c = "..".toList then acc.dropLast else acc ++ [c]

/-- `Path.resolve()` on an absolute path, lexically (the model has no
symlinks): `..` pops a component, `..` at the root stays at the root. -/
def resolveComps (comps : List (List Char)) : List (List Char) :=
  comps.foldl resolveStep []

/-- The configured input root `INPUT_DIR = ROOT / "input"`, as the
components of an absolute path. -/
def inputDirComps : List (List Char) := ["vault".toList, "input".toList]

/-- `_is_url` from `vault_core/ingest/pipeline.py`: the string parses with
scheme `http` or `https`. -/
def is_url (s : List Char) : Bool :=
  match (splitScheme s).1 with
  | some sch => sch == "http".toList || sch == "https".toList
  | none => false

inductive IngestErr where
  | notFound : IngestErr
  deriving DecidableEq, Repr

/-- The source-classification and path-resolution step of `ingest_source`
from `vault_core/ingest/pipeline.py`: a URL source is delegated to
`fetch_pdf` (whose successful result is the oracle `fetchO`); otherwise the
source is a local path, joined under `INPUT_DIR` when relative, resolved,
and required to exist in the filesystem `fs` — `FileNotFoundError`
(`IngestErr.notFound`) otherwise. -/
def ingest_source_resolve (fetchO : List Char → List (List Char))
    (fs : List (List (List Char))) (source : List Char) :
    Except IngestErr (List (List Char)) :=
  if is_url source then Except.ok (fetchO source)
  else
    if resolveComps (pathJoin inputDirComps source) ∈ fs then
      Except.ok (resolveComps (pathJoin inputDirComps source))
    else Except.error IngestErr.notFound

theorem ensure_pdf_suffix_ends (f : List Char) :
    ".pdf".toList <:+ (ensure_pdf_suffix f).map Char.toLower := by
  rw [ensure_pdf_suffix]
  by_cases h : endsWith (f.map Char.toLower) ".pdf".toList
  · rw [if_pos h]
    exact of_decide_eq_true h
  · rw [if_neg h, List.map_append]
    have hp : ".pdf".toList.map Char.toLower = ".pdf".toList := by decide
    rw [hp]
    exact List.suffix_append _ _

theorem ensure_pdf_suffix_props (f : List Char) (hs : '/' ∉ f) (hne : f ≠ []) :
    '/' ∉ ensure_pdf_suffix f ∧ ensure_pdf_suffix f ≠ [] ∧
    ensure_pdf_suffix f ≠ "..".toList ∧ ensure_pdf_suffix f ≠ ['.'] := by
  rw [ensure_pdf_suffix]
  by_cases h : endsWith (f.map Char.toLower) ".pdf".toList
  · rw [if_pos h]
    refine ⟨hs, hne, ?_, ?_⟩
    · rintro rfl
      exact absurd h (by decide)
    · rintro rfl
      exact absurd h (by decide)
  · rw [if_neg h]
    refine ⟨?_, by simp, ?_, ?_⟩
    · intro hmem
      rcases List.mem_append.mp hmem with hm | hm
      · exact hs hm
      · revert hm; decide
    · intro heq
      have hlen := congrArg List.length heq
      rw [List.length_append, show (".pdf".toList).length = 4 from rfl,
        show ("..".toList).length = 2 from rfl] at hlen
      omega
    · intro heq
      have hlen := congrArg List.length heq
      rw [List.length_append, show (".pdf".toList).length = 4 from rfl] at hlen
      simp at hlen

theorem fetch_pdf_derive_props (url : List Char) :
    '/' ∉ fetch_pdf_derive url ∧ fetch_pdf_derive url ≠ [] := by
  rw [fetch_pdf_derive]
  by_cases h : ((splitOnChar '/' (rstripChar '/' url)).getLast?).getD [] = []
  · rw [if_pos h]
    exact ⟨by decide, by decide⟩
  · rw [if_neg h]
    refine ⟨?_, h⟩
    have hmem : ((splitOnChar '/' (rstripChar '/' url)).getLast?).getD [] ∈
        splitOnChar '/' (rstripChar '/' url) := by
      cases hg : (splitOnChar '/' (rstripChar '/' url)).getLast? with
      | none => rw [hg] at h; simp at h
      | some g =>
        simp only [Option.getD_some]
        exact List.mem_of_mem_getLast? hg
    exact sep_not_mem_of_mem_splitOnChar _ _ _ hmem

theorem resolve_join_single (f : List Char) (hs : '/' ∉ f) (hne : f ≠ [])
    (hdot : f ≠ ['.']) (hdd : f ≠ "..".toList) :
    resolveComps (pathJoin inputDirComps f) = inputDirComps ++ [f] := by
  have habs : isAbsPath f = false := by
    cases f with
    | nil => rfl
    | cons c cs =>
      show (c == '/') = false
      have : ¬c = '/' := fun he => hs (he ▸ List.mem_cons_self _ _)
      simpa using this
  rw [pathJoin, if_neg (by simp [habs])]
  have h1 : f.isEmpty = false := by
    cases f
    · exact absurd rfl hne
    · rfl
  have hcomps : pathComps f = [f] := by
    rw [pathComps, splitOnChar_of_not_mem _ _ hs]
    simp [h1, hdot]
  rw [hcomps, resolveComps, List.foldl_append]
  have h2 : List.foldl resolveStep [] inputDirComps = inputDirComps := by decide
  rw [h2]
  simp only [List.foldl_cons, List.foldl_nil, resolveStep, if_neg hdd]

theorem safe_base_ne_nil (url : List Char) : safe_base url ≠ [] := by
  rw [safe_base]
  by_cases h : pathlibName (pyUrlPath url) = []
  · rw [if_pos h]; decide
  · rw [if_neg h]; exact h

theorem safe_name_all_safe (url : List Char) : (safe_name url).all isSafeChar = true := by
  rw [safe_name, List.all_eq_true]
  intro c hc
  rcases List.mem_map.mp hc with ⟨c0, _, rfl⟩
  by_cases hcs : isSafeChar c0
  · rw [if_pos hcs]; exact hcs
  · rw [if_neg hcs]; decide

theorem safe_name_long (url : List Char) : 3 ≤ (safe_name url).length := by
  rw [safe_name, List.length_map]
  by_cases hse : hasShortExt (safe_base url)
  · rw [if_pos hse]
    rw [hasShortExt] at hse
    have h12 := (Bool.and_eq_true _ _).mp hse
    have h2 := (Bool.and_eq_true _ _).mp h12.1
    have hrun : 2 ≤ ((safe_base url).reverse.takeWhile Char.isAlphanum).length :=
      of_decide_eq_true h2.1
    have hdotc : (safe_base url).reverse.get?
        ((safe_base url).reverse.takeWhile Char.isAlphanum).length = some '.' :=
      eq_of_beq h12.2
    have hlt := (List.get?_eq_some.mp hdotc).1
    rw [List.length_reverse] at hlt
    omega
  · rw [if_neg hse, List.length_append]
    have h1 : 1 ≤ (safe_base url).length := by
      cases hsb : safe_base url with
      | nil => exact absurd hsb (safe_base_ne_nil url)
      | cons c cs => simp
    rw [show (".bin".toList).length = 4 from rfl]
    omega

/-- C6 (amended): neither fetch draft can escape the input directory.  The
name `fetch_pdf` derives is a single nonempty `/`‑free segment distinct
from `.` and `..`, so joining and resolving it under the input root yields
a direct child of the input directory; `safe_name` additionally sanitises,
producing a nonempty name made only of `[A-Za-z0-9._-]` characters (hence
no `/`), at least three characters long (hence not `..`), which likewise
resolves to a direct child of the input directory.  `fetch_pdf` itself,
however, performs no character sanitisation (see the counterexample). -/
theorem fetch_name_traversal_confinement (url : List Char) :
    ('/' ∉ fetch_pdf_filename url none ∧ fetch_pdf_filename url none ≠ [] ∧
     fetch_pdf_filename url none ≠ "..".toList ∧ fetch_pdf_filename url none ≠ ['.']) ∧
    resolveComps (pathJoin inputDirComps (fetch_pdf_filename url none)) =
      inputDirComps ++ [fetch_pdf_filename url none] ∧
    (safe_name url).all isSafeChar = true ∧ safe_name url ≠ [] ∧
    '/' ∉ safe_name url ∧ safe_name url ≠ "..".toList ∧
    resolveComps (pathJoin inputDirComps (safe_name url)) =
      inputDirComps ++ [safe_name url] := by
  have hd := fetch_pdf_derive_props url
  have hprops := ensure_pdf_suffix_props (fetch_pdf_derive url) hd.1 hd.2
  have hfetch : fetch_pdf_filename url none = ensure_pdf_suffix (fetch_pdf_derive url) := rfl
  have hall := safe_name_all_safe url
  have hlen3 := safe_name_long url
  have hne : safe_name url ≠ [] := by
    intro h
    rw [h] at hlen3
    simp at hlen3
  have hslash : '/' ∉ safe_name url := by
    intro hm
    have := List.all_eq_true.mp hall _ hm
    exact absurd this (by decide)
  have hdd : safe_name url ≠ "..".toList := by
    intro h
    have := congrArg List.length h
    rw [show ("..".toList).length = 2 from rfl] at this
    omega
  have hdot1 : safe_name url ≠ ['.'] := by
    intro h
    have := congrArg List.length h
    simp at this
    omega
  rw [hfetch]
  exact ⟨hprops,
    resolve_join_single _ hprops.1 hprops.2.1 hprops.2.2.2 hprops.2.2.1,
    hall, hne, hslash, hdd,
    resolve_join_single _ hslash hne hdot1 hdd⟩

/-- C6: counterexample.  For the URL `http://x.com/..%2Fetc` (an encoded
traversal attempt), `fetch_pdf` uses the segment `..%2Fetc` verbatim as the
filename (plus `.pdf`): the used name contains the substring `..` and
characters outside `[A-Za-z0-9._-]` (`%`), so the segment is neither
rejected nor sanitised, contrary to the claim's reject-or-sanitise clause
(the path nevertheless stays inside the input directory, per the amended
theorem). -/
theorem fetch_name_unsanitized_counterexample :
    fetch_pdf_filename "http://x.com/..%2Fetc".toList none = "..%2Fetc.pdf".toList ∧
    "..".toList <:+: "..%2Fetc.pdf".toList ∧
    ¬("..%2Fetc.pdf".toList.all isSafeChar = true) := by
  refine ⟨by decide, by decide, by decide⟩

/-- C10 (amended): both drafts store the download under a name ending in
`.pdf` up to ASCII case (`fetch_pdf` keeps an existing `.PDF`-style suffix
unchanged).  `fetch_pdf` derives the name from the last `/`-separated
segment of the WHOLE URL after stripping trailing slashes — so a path-less
URL yields the host name, not the `download.pdf` fallback, which is used
only when that segment is empty — while the alternate draft takes the last
URL path segment with fallback `document.pdf`. -/
theorem stored_name_pdf_suffix :
    (∀ url filename, ".pdf".toList <:+ (fetch_pdf_filename url filename).map Char.toLower) ∧
    (∀ url, ".pdf".toList <:+ (guess_filename_from_url url).map Char.toLower) ∧
    fetch_pdf_filename "https://example.com".toList none = "example.com.pdf".toList ∧
    guess_filename_from_url "https://example.com".toList = "document.pdf".toList ∧
    fetch_pdf_filename "http://x.com/a".toList none = "a.pdf".toList := by
  refine ⟨fun url filename => ?_, fun url => ?_, by decide, by decide, by decide⟩
  · exact ensure_pdf_suffix_ends _
  · exact ensure_pdf_suffix_ends _

/-- C10: counterexample.  For the path-less URL `https://example.com`,
`fetch_pdf` derives `example.com.pdf` (the host), not the claimed
`download.pdf`/`document.pdf` fallback; and for `http://x.com/A.PDF` the
stored name is `A.PDF`, which does not end in the literal suffix `.pdf`. -/
theorem stored_name_counterexample :
    fetch_pdf_filename "https://example.com".toList none = "example.com.pdf".toList ∧
    "example.com.pdf".toList ≠ "download.pdf".toList ∧
    "example.com.pdf".toList ≠ "document.pdf".toList ∧
    fetch_pdf_filename "http://x.com/A.PDF".toList none = "A.PDF".toList ∧
    ¬(".pdf".toList <:+ "A.PDF".toList) := by
  refine ⟨by decide, by decide, by decide, by decide, by decide⟩

/-- C8: a source that does not parse as an http/https URL is treated as a
local path: joined under the input root when relative, resolved, and the
resolution fails with `IngestErr.notFound` exactly when the resolved path
is missing from the filesystem. -/
theorem local_source_resolution (fetchO : List Char → List (List Char))
    (fs : List (List (List Char))) (source : List Char)
    (h : is_url source = false) :
    (isAbsPath source = false →
      pathJoin inputDirComps source = inputDirComps ++ pathComps source) ∧
    (resolveComps (pathJoin inputDirComps source) ∉ fs →
      ingest_source_resolve fetchO fs source = Except.error IngestErr.notFound) ∧
    (resolveComps (pathJoin inputDirComps source) ∈ fs →
      ingest_source_resolve fetchO fs source =
        Except.ok (resolveComps (pathJoin inputDirComps source))) := by
  refine ⟨fun ha => ?_, fun hnm => ?_, fun hm => ?_⟩
  · rw [pathJoin, if_neg (by simp [ha])]
  · rw [ingest_source_resolve, if_neg (by simp [h]), if_neg hnm]
  · rw [ingest_source_resolve, if_neg (by simp [h]), if_pos hm]

/-- C8, witness: the non-URL source `missing.pdf` against an empty
filesystem fails with not-found. -/
theorem local_source_resolution_witness :
    ingest_source_resolve (fun _ => []) [] "missing.pdf".toList =
      Except.error IngestErr.notFound ∧
    pathJoin inputDirComps "missing.pdf".toList =
      inputDirComps ++ pathComps "missing.pdf".toList :=
  ⟨(local_source_resolution (fun _ => []) [] "missing.pdf".toList (by decide)).2.1
      (by simp),
   (local_source_resolution (fun _ => []) [] "missing.pdf".toList (by decide)).1
      (by decide)⟩

/-- Observable crawl events: a fetch attempt for a URL, and an invocation
of the `on_document` callback with the URL and the HTML (or `None`). -/
inductive CEvent where
  | fetch : String → CEvent
  | callback : String → Option String → CEvent
  deriving DecidableEq, Repr

/-- The frontier loop of `crawl_seed_urls` from `vault_core/crawler.py`,
fuel-bounded.  `robots` is the `RobotsCache.can_fetch` answer, `fetchO` the
result of `fetch_url` (HTML body, or `none` for errors / non-2xx /
non-HTML), and `linksO` the `extract_links` result for a fetched page.
Per iteration: pop `(url, depth)`; discard if visited; mark visited; if
robots disallows, skip entirely (no fetch, no callback); otherwise fetch,
invoke the callback (exceptions in it are caught and do not alter the
traversal), and — when HTML came back and `depth < max_depth` — enqueue the
unvisited extracted links at `depth + 1`. -/
def crawlLoop (robots : String → Bool) (fetchO : String → Option String)
    (linksO : String → String → List String) (maxDepth : Nat) :
    Nat → List (String × Nat) → List String → List CEvent
  | 0, _, _ => []
  | fuel + 1, queue, visited =>
    match queue with
    | [] => []
    | (url, depth) :: rest =>
      if url ∈ visited then crawlLoop robots fetchO linksO maxDepth fuel rest visited
      else if !robots url then
        crawlLoop robots fetchO linksO maxDepth fuel rest (url :: visited)
      else
        CEvent.fetch url :: CEvent.callback url (fetchO url) ::
          crawlLoop robots fetchO linksO maxDepth fuel
            (match fetchO url with
             | none => rest
             | some h =>
               if depth ≥ maxDepth then rest
               else
                 rest ++ ((linksO url h).filter fun u => !(url :: visited).contains u).map
                   fun u => (u, depth + 1))
            (url :: visited)

/-- `crawl_seed_urls`: all seeds start at depth 0 with an empty visited
set.  Returns the trace of fetch/callback events. -/
def crawl_seed_urls (robots : String → Bool) (fetchO : String → Option String)
    (linksO : String → String → List String) (maxDepth : Nat)
    (seeds : List String) (fuel : Nat) : List CEvent :=
  crawlLoop robots fetchO linksO maxDepth fuel (seeds.map fun u => (u, 0)) []

theorem crawlLoop_robots_safe (robots : String → Bool) (fetchO : String → Option String)
    (linksO : String → String → List String) (maxDepth : Nat) (url : String)
    (h : robots url = false) :
    ∀ fuel queue visited,
      CEvent.fetch url ∉ crawlLoop robots fetchO linksO maxDepth fuel queue visited ∧
      ∀ html, CEvent.callback url html ∉
        crawlLoop robots fetchO linksO maxDepth fuel queue visited := by
  intro fuel
  induction fuel with
  | zero => intro queue visited; simp [crawlLoop]
  | succ fuel ih =>
    intro queue visited
    match queue with
    | [] => simp [crawlLoop]
    | (u, depth) :: rest =>
      rw [crawlLoop]
      by_cases hv : u ∈ visited
      · rw [if_pos hv]
        exact ih rest visited
      · rw [if_neg hv]
        by_cases hr : robots u
        · rw [if_neg (by simp [hr])]
          have hne : u ≠ url := fun he => by rw [he, h] at hr; exact Bool.noConfusion hr
          constructor
          · intro hmem
            rcases List.mem_cons.mp hmem with heq | hmem'
            · exact hne (CEvent.fetch.inj heq).symm
            · rcases List.mem_cons.mp hmem' with heq | hmem''
              · exact CEvent.noConfusion heq
              · exact (ih _ _).1 hmem''
          · intro html hmem
            rcases List.mem_cons.mp hmem with heq | hmem'
            · exact CEvent.noConfusion heq
            · rcases List.mem_cons.mp hmem' with heq | hmem''
              · exact hne (CEvent.callback.inj heq).1.symm
              · exact (ih _ _).2 html hmem''
        · rw [if_pos (by simpa using hr)]
          exact ih rest (u :: visited)

/-- C4: for any robots policy, fetch behaviour, link structure, depth
limit, seed list and fuel, a URL the robots policy disallows is never
fetched and never handed to `on_document` — it is skipped entirely when
popped from the frontier. -/
theorem robots_disallowed_never_fetched (robots : String → Bool)
    (fetchO : String → Option String) (linksO : String → String → List String)
    (maxDepth : Nat) (seeds : List String) (fuel : Nat) (url : String)
    (h : robots url = false) :
    CEvent.fetch url ∉ crawl_seed_urls robots fetchO linksO maxDepth seeds fuel ∧
    ∀ html, CEvent.callback url html ∉
      crawl_seed_urls robots fetchO linksO maxDepth seeds fuel :=
  crawlLoop_robots_safe robots fetchO linksO maxDepth url h fuel _ _

/-- C4, witness: with a robots policy disallowing everything, a seed URL
under `/private/` is never fetched and never passed to the callback. -/
theorem robots_disallowed_never_fetched_witness :
    CEvent.fetch "https://site/private/a" ∉
      crawl_seed_urls (fun _ => false) (fun _ => some "") (fun _ _ => [])
        1 ["https://site/private/a"] 5 ∧
    CEvent.callback "https://site/private/a" none ∉
      crawl_seed_urls (fun _ => false) (fun _ => some "") (fun _ _ => [])
        1 ["https://site/private/a"] 5 :=
  ⟨(robots_disallowed_never_fetched (fun _ => false) (fun _ => some "") (fun _ _ => [])
      1 ["https://site/private/a"] 5 "https://site/private/a" rfl).1,
   (robots_disallowed_never_fetched (fun _ => false) (fun _ => some "") (fun _ _ => [])
      1 ["https://site/private/a"] 5 "https://site/private/a" rfl).2 none⟩

/-- One entry of the Whoosh index, as the schema of
`vault_core/search/indexer.py` declares it: a unique stored `doc_id`, a
stored `source_file` and the stored content. -/
structure IxEntry where
  doc_id : String
  source_file : String
  content : String
  deriving DecidableEq, Repr

/-- Whoosh's `writer.update_document`, modelled at the external engine's
interface boundary: delete every existing entry whose unique field
(`doc_id` — the only schema field marked `unique`) matches, then add the
new entry. -/
def update_document (ix : List IxEntry) (e : IxEntry) : List IxEntry :=
  (ix.filter fun x => x.doc_id != e.doc_id) ++ [e]

/-- `pathlib.PurePosixPath(p).stem` of a name: the name without its final
suffix; a suffix exists when the last dot is neither the first nor the
last character. -/
def pathlibStem (n : List Char) : List Char :=
  if (n.reverse.takeWhile fun c => c != '.').length < n.length &&
      decide (0 < (n.reverse.takeWhile fun c => c != '.').length) &&
      decide ((n.reverse.takeWhile fun c => c != '.').length + 1 < n.length) then
    n.take (n.length - 1 - (n.reverse.takeWhile fun c => c != '.').length)
  else n

/-- `update_index_for_file` from `vault_core/search/indexer.py`: the
document identifier is the stem of the text artifact's name, and the entry
is upserted through `update_document`.  The file's text is the `content`
argument. -/
def update_index_for_file (ix : List IxEntry) (txt_path : String) (content : String) :
    List IxEntry :=
  update_document ix
    ⟨(pathlibStem (pathlibName txt_path.toList)).asString, txt_path, content⟩

/-- C5: the index upsert is keyed by the document identifier — the stem of
the extracted-text artifact name: one upsert leaves exactly one entry with
that identifier, a second upsert for the same path replaces the first
outright rather than adding a duplicate, and the upserted entry carries the
stem as `doc_id`. -/
theorem upsert_keyed_by_doc_id (ix : List IxEntry) (txt_path content content' : String) :
    update_index_for_file (update_index_for_file ix txt_path content) txt_path content' =
      update_index_for_file ix txt_path content' ∧
    (update_index_for_file ix txt_path content).countP
        (fun e => e.doc_id == (pathlibStem (pathlibName txt_path.toList)).asString) = 1 ∧
    IxEntry.mk (pathlibStem (pathlibName txt_path.toList)).asString txt_path content ∈
      update_index_for_file ix txt_path content := by
  refine ⟨?_, ?_, ?_⟩
  · rw [update_index_for_file, update_index_for_file, update_index_for_file,
      update_document, update_document, update_document, List.filter_append]
    rw [List.filter_filter]
    simp
  · rw [update_index_for_file, update_document, List.countP_append]
    have h0 : (ix.filter fun x =>
        x.doc_id != (pathlibStem (pathlibName txt_path.toList)).asString).countP
        (fun e => e.doc_id == (pathlibStem (pathlibName txt_path.toList)).asString) = 0 := by
      rw [List.countP_eq_zero]
      intro a ha
      have := List.of_mem_filter ha
      simpa using this
    rw [h0]
    simp
  · rw [update_index_for_file, update_document]
    exact List.mem_append_right _ (List.mem_singleton.mpr rfl)

end Vault
